import Mathlib

/-!
Shallow embedding of the mhc-visualizer numeric core
(src/react-demo/src/lib/sinkhorn.ts, simulation.ts, metrics.ts) in Lean 4,
together with theorems checking the natural-language specification.

Modelling conventions:
* JavaScript floating-point arithmetic is idealized as exact arithmetic in a
  linear ordered field `α`.  The transcendental library functions used by the
  code (`Math.exp`, `Math.log`, `Math.sqrt`, `Math.cos`, `Math.PI`) are
  abstracted as a parameter structure `RealOps α`, so every definition stays
  computable and can be evaluated on concrete inputs (for witnesses we
  instantiate `α := ℚ` with simple total functions satisfying the needed
  hypotheses, e.g. `sqrt 1 = 1`).
* Matrices are `List (List α)`, row major, exactly as the `number[][]` values
  of the source.  Out-of-range JavaScript index reads (which yield `undefined`
  and then `NaN`) are modelled by `List.getD` with default `0`; every theorem
  below only evaluates entries that are in range in the source as well.
* The mulberry32 generator state is the captured `seed` variable, an integer
  that grows by `0x6d2b79f5` on every draw; all JavaScript 32-bit coercions
  (`>>> 0`, `Math.imul`, `^`, `|`, `>>>`) depend only on the value mod 2^32
  and are modelled by natural-number bit operations mod 2^32.
-/

namespace MHCViz

/-- Abstraction of the transcendental `Math` functions used by the source.
Keeping them as parameters makes the whole development computable while the
theorems state exactly which analytic facts (for example `sqrt 1 = 1`,
`0 < exp x`) each property needs. -/
structure RealOps (α : Type) where
  exp : α → α
  log : α → α
  sqrt : α → α
  cos : α → α
  pi : α

/-- Row-major matrix, mirroring the `number[][]` values of the source. -/
abbrev Mat (α : Type) : Type := List (List α)

/-- Entry access `A[i][j]`, with default 0 for out-of-range reads. -/
def entry {α : Type} [Zero α] (A : Mat α) (i j : ℕ) : α :=
  (A.getD i []).getD j 0

/-- Shape predicate: `A` has `p` rows, each of length `q`. -/
def IsDim {α : Type} (A : Mat α) (p q : ℕ) : Prop :=
  A.length = p ∧ ∀ row ∈ A, row.length = q

instance {α : Type} (A : Mat α) (p q : ℕ) : Decidable (IsDim A p q) := by
  unfold IsDim; infer_instance

/-! ### Mulberry32 PRNG (sinkhorn.ts lines 10-17) -/

/-- Additive constant `0x6d2b79f5` of mulberry32. -/
def mulberryInc : ℤ := 1831565813

/-- Bit-mixing function of mulberry32 on the 32-bit word `(seed mod 2^32)`;
all JavaScript 32-bit coercions are mod `2^32`. -/
def mulberryHash (w : ℕ) : ℕ :=
  let t1 := ((w ^^^ (w >>> 15)) * (w ||| 1)) % 4294967296
  let m := ((t1 ^^^ (t1 >>> 7)) * (t1 ||| 61)) % 4294967296
  let t2 := t1 ^^^ ((t1 + m) % 4294967296)
  (t2 ^^^ (t2 >>> 14)) % 4294967296

/-- One draw of the mulberry32 closure: the captured `seed` is incremented by
`0x6d2b79f5`, and the returned 32-bit word is the hash of the new seed.
The uniform value in `[0,1)` is this word divided by `2^32`. -/
def mulberry32 (s : ℤ) : ℤ × ℕ :=
  let s2 := s + mulberryInc
  (s2, mulberryHash (s2 % 4294967296).toNat)

/-- Uniform draw as a field element: `word / 2^32` (sinkhorn.ts line 15). -/
def uniformVal {α : Type} [LinearOrderedField α] (w : ℕ) : α :=
  (w : α) / 4294967296

/-! ### Box-Muller normal sampler (sinkhorn.ts lines 22-26) -/

/-- Box-Muller transform, cosine branch, consuming two uniform draws:
`sqrt(-2 log u1) * cos(2 pi u2)`.  Returns the sample and the advanced
generator state. -/
def normalRandom {α : Type} [LinearOrderedField α] (R : RealOps α) (s : ℤ) :
    α × ℤ :=
  let p1 := mulberry32 s
  let p2 := mulberry32 p1.1
  let u1 : α := uniformVal p1.2
  let u2 : α := uniformVal p2.2
  (R.sqrt (-2 * R.log u1) * R.cos (2 * R.pi * u2), p2.1)

/-! ### Matrix primitives (sinkhorn.ts lines 31-77) -/

/-- Identity matrix builder `eye(n)` (sinkhorn.ts lines 31-39). -/
def eye {α : Type} [Zero α] [One α] (n : ℕ) : Mat α :=
  (List.range n).map fun i => (List.range n).map fun j =>
    if i = j then (1 : α) else 0

/-- Draws one row of `m` normal entries, left to right. -/
def drawRow {α : Type} [LinearOrderedField α] (R : RealOps α) :
    ℕ → ℤ → List α × ℤ
  | 0, s => ([], s)
  | m + 1, s =>
    let p := normalRandom R s
    let rest := drawRow R m p.2
    (p.1 :: rest.1, rest.2)

/-- Draws `m` rows of `n` normal entries each, top to bottom. -/
def drawRows {α : Type} [LinearOrderedField α] (R : RealOps α) (n : ℕ) :
    ℕ → ℤ → Mat α × ℤ
  | 0, s => ([], s)
  | m + 1, s =>
    let r := drawRow R n s
    let rest := drawRows R n m r.2
    (r.1 :: rest.1, rest.2)

/-- Random `n x n` matrix with normal entries drawn in row-major order
(sinkhorn.ts lines 44-52). -/
def randomMatrix {α : Type} [LinearOrderedField α] (R : RealOps α) (n : ℕ)
    (s : ℤ) : Mat α × ℤ :=
  drawRows R n n s

/-- Matrix multiplication (sinkhorn.ts lines 57-77): `n = A.length`,
`m = B[0].length`, `k = B.length`, `C[i][j] = sum over l < k of A[i][l]*B[l][j]`.
No dimension check is performed by the source. -/
def matmul {α : Type} [LinearOrderedField α] (A B : Mat α) : Mat α :=
  let n := A.length
  let m := (B.headD []).length
  let k := B.length
  (List.range n).map fun i => (List.range m).map fun j =>
    ((List.range k).map fun l => entry A i l * entry B l j).sum

/-! ### Sinkhorn-Knopp projection (sinkhorn.ts lines 82-134) -/

/-- Maximum entry of the matrix (sinkhorn.ts lines 82-90).  The source starts
the scan from `-Infinity`; for a nonempty matrix the result is the maximum of
all entries, which the fold below reproduces.  For an empty matrix the source
value `-Infinity` is never consumed, so the default here is irrelevant. -/
def matrixMax {α : Type} [LinearOrderedField α] (M : Mat α) : α :=
  M.flatten.foldl max (M.flatten.headD 0)

/-- Division-by-zero floor `1e-8` used by both normalization passes. -/
def sinkEps {α : Type} [LinearOrderedField α] : α := 1 / 100000000

/-- Exponentiation step: subtract the maximum entry, then exponentiate
element-wise (sinkhorn.ts lines 103-108). -/
def expMat {α : Type} [LinearOrderedField α] (R : RealOps α) (M : Mat α) :
    Mat α :=
  M.map fun row => row.map fun v => R.exp (v - matrixMax M)

/-- Row normalization pass: divide every row by its sum, floored at `1e-8`
(sinkhorn.ts lines 111-118). -/
def rowNormalize {α : Type} [LinearOrderedField α] (P : Mat α) : Mat α :=
  P.map fun row => row.map fun x => x / max row.sum sinkEps

/-- Column sum `sum over i < P.length of P[i][j]` (sinkhorn.ts lines 122-125). -/
def colSum {α : Type} [LinearOrderedField α] (P : Mat α) (j : ℕ) : α :=
  (P.map fun row => row.getD j 0).sum

/-- Divides the entries of one row by the column divisors, starting at column
index `j0`. -/
def colNormRow {α : Type} [LinearOrderedField α] (P : Mat α) :
    ℕ → List α → List α
  | _, [] => []
  | j0, x :: xs => x / max (colSum P j0) sinkEps :: colNormRow P (j0 + 1) xs

/-- Column normalization pass: divide every column by its sum, floored at
`1e-8` (sinkhorn.ts lines 121-130). -/
def colNormalize {α : Type} [LinearOrderedField α] (P : Mat α) : Mat α :=
  P.map (colNormRow P 0)

/-- Sinkhorn-Knopp projection (sinkhorn.ts lines 95-134): exponentiate with
max subtraction, then repeat `iterations` times a full row pass followed by a
full column pass.  The `for` loop runs `iterations.toNat` times, matching the
JavaScript loop which does not execute for non-positive counts. -/
def sinkhornKnopp {α : Type} [LinearOrderedField α] (R : RealOps α)
    (matrix : Mat α) (iterations : ℤ) : Mat α :=
  (List.range iterations.toNat).foldl
    (fun P _ => colNormalize (rowNormalize P)) (expMat R matrix)

/-! ### Simulation engine (simulation.ts) -/

/-- Closed method tag per types.ts line 48. -/
inductive Method : Type
  | baseline
  | hc
  | mhc
deriving DecidableEq, Repr

/-- Residual matrix generation (simulation.ts lines 19-46): `baseline` returns
the identity and consumes no randomness; `hc` returns the raw random matrix;
`mhc` returns the raw random matrix unprojected when `sinkhornIters == 0`, and
otherwise applies the Sinkhorn projection to it.  The `Unknown method` throw
of the source is unreachable because `Method` is a closed sum type. -/
def generateResidualMatrix {α : Type} [LinearOrderedField α] (R : RealOps α)
    (n : ℕ) (method : Method) (sinkhornIters : ℤ) (s : ℤ) : Mat α × ℤ :=
  match method with
  | Method.baseline => (eye n, s)
  | Method.hc => randomMatrix R n s
  | Method.mhc =>
    let p := randomMatrix R n s
    if sinkhornIters = 0 then p else (sinkhornKnopp R p.1 sinkhornIters, p.2)

/-- Result record of one simulation run (types.ts lines 32-40).  The source
stores `computeAllMetrics H` and `computeAllMetrics composite` per layer; the
embedding records the matrices those metric records are pure functions of:
`layerMats` holds each layer matrix `H` and `compositeMats` the running
product after each layer. -/
structure SimulationResult (α : Type) where
  method : Method
  depth : ℤ
  n : ℕ
  sinkhornIters : ℤ
  seed : ℤ
  layerMats : List (Mat α)
  compositeMats : List (Mat α)

/-- Simulation loop body (simulation.ts lines 65-85): per layer, generate `H`,
record it, left-multiply it into the composite, record the new composite. -/
def simLoop {α : Type} [LinearOrderedField α] (R : RealOps α) (n : ℕ)
    (method : Method) (k : ℤ) :
    ℕ → Mat α → ℤ → (List (Mat α) × List (Mat α)) × ℤ
  | 0, _, s => (([], []), s)
  | d + 1, comp, s =>
    let p := generateResidualMatrix R n method k s
    let comp1 := matmul p.1 comp
    let rest := simLoop R n method k d comp1 p.2
    ((p.1 :: rest.1.1, comp1 :: rest.1.2), rest.2)

/-- Depth simulation (simulation.ts lines 51-96): fresh generator from `seed`,
composite initialized to `eye n`, then `depth` layer steps.  The source
performs no validation of `depth`, `n` or `sinkhornIters`; a non-positive
`depth` simply runs the loop zero times. -/
def simulateDepth {α : Type} [LinearOrderedField α] (R : RealOps α)
    (depth : ℤ) (n : ℕ) (method : Method) (sinkhornIters : ℤ) (seed : ℤ) :
    SimulationResult α :=
  let out := simLoop R n method sinkhornIters depth.toNat (eye n) seed
  { method := method
    depth := depth
    n := n
    sinkhornIters := sinkhornIters
    seed := seed
    layerMats := out.1.1
    compositeMats := out.1.2 }

/-- Comparison record (types.ts lines 42-46). -/
structure ComparisonResult (α : Type) where
  baseline : SimulationResult α
  hc : SimulationResult α
  mhc : SimulationResult α

/-- Comparison driver (simulation.ts lines 101-112): one `simulateDepth` per
method, all three with the same seed. -/
def runComparison {α : Type} [LinearOrderedField α] (R : RealOps α)
    (depth : ℤ) (n : ℕ) (sinkhornIters : ℤ) (seed : ℤ) : ComparisonResult α :=
  { baseline := simulateDepth R depth n Method.baseline sinkhornIters seed
    hc := simulateDepth R depth n Method.hc sinkhornIters seed
    mhc := simulateDepth R depth n Method.mhc sinkhornIters seed }

/-- Sample matrix for preview rendering (simulation.ts lines 117-125): a fresh
generator from `seed`, then one residual matrix generation. -/
def getSampleMatrix {α : Type} [LinearOrderedField α] (R : RealOps α) (n : ℕ)
    (method : Method) (sinkhornIters : ℤ) (seed : ℤ) : Mat α :=
  (generateResidualMatrix R n method sinkhornIters seed).1

/-- Generator state at entry of layer `L`: the state after the residual-matrix
generations of layers `0 .. L-1`, starting from `seed`. -/
def layerEntryState {α : Type} [LinearOrderedField α] (R : RealOps α) (n : ℕ)
    (method : Method) (k : ℤ) (seed : ℤ) : ℕ → ℤ
  | 0 => seed
  | L + 1 =>
    (generateResidualMatrix R n method k
      (layerEntryState R n method k seed L)).2

/-- Pre-projection matrix of layer `L` of an mhc run: the raw random matrix
`M` drawn at simulation.ts line 30 before the Sinkhorn branch, from the state
the mhc run has reached at layer `L`. -/
def mhcPreProjection {α : Type} [LinearOrderedField α] (R : RealOps α) (n : ℕ)
    (k : ℤ) (seed : ℤ) (L : ℕ) : Mat α :=
  (randomMatrix R n (layerEntryState R n Method.mhc k seed L)).1

/-- Concrete instantiation of the transcendental parameters over `ℚ`, used by
witnesses and counterexamples; it satisfies the hypotheses the theorems need
(`sqrt 1 = 1`, `exp` positive). -/
def R0 : RealOps ℚ where
  exp := fun _ => 1
  log := fun _ => 0
  sqrt := fun x => x
  cos := fun _ => 1
  pi := 0

/-! ### General helper lemmas -/

/-- A fold over `List.range n` with a body ignoring the index is the n-fold
iterate of the body. -/
theorem foldl_range_const {β : Type} (g : β → β) (x : β) :
    ∀ n : ℕ, (List.range n).foldl (fun P _ => g P) x = g^[n] x := by
  intro n
  induction n with
  | zero => rfl
  | succ n ih =>
    rw [List.range_succ, List.foldl_append, ih,
      Function.iterate_succ_apply']
    rfl

/-- Positivity of the division floor. -/
theorem sinkEps_pos {α : Type} [LinearOrderedField α] :
    (0 : α) < sinkEps := by
  norm_num [sinkEps]

/-- Entries of the exponentiated matrix are positive whenever `exp` is. -/
theorem expMat_pos {α : Type} [LinearOrderedField α] (R : RealOps α)
    (hexp : ∀ x : α, 0 < R.exp x) (M : Mat α) :
    ∀ row ∈ expMat R M, ∀ x ∈ row, 0 < x := by
  intro row hrow x hx
  simp only [expMat, List.mem_map] at hrow
  obtain ⟨row0, -, rfl⟩ := hrow
  simp only [List.mem_map] at hx
  obtain ⟨v, -, rfl⟩ := hx
  exact hexp _

/-- Row normalization preserves entrywise positivity: every divisor is floored
at the positive constant `1e-8`. -/
theorem rowNormalize_pos {α : Type} [LinearOrderedField α] (P : Mat α)
    (h : ∀ row ∈ P, ∀ x ∈ row, 0 < x) :
    ∀ row ∈ rowNormalize P, ∀ x ∈ row, 0 < x := by
  intro row hrow x hx
  simp only [rowNormalize, List.mem_map] at hrow
  obtain ⟨row0, h0, rfl⟩ := hrow
  simp only [List.mem_map] at hx
  obtain ⟨v, hv, rfl⟩ := hx
  exact div_pos (h row0 h0 v hv) (lt_max_of_lt_right sinkEps_pos)

/-- Column division of a single row preserves positivity. -/
theorem colNormRow_pos {α : Type} [LinearOrderedField α] (P : Mat α) :
    ∀ (l : List α) (j0 : ℕ), (∀ x ∈ l, 0 < x) →
      ∀ y ∈ colNormRow P j0 l, 0 < y := by
  intro l
  induction l with
  | nil => intro j0 _ y hy; simp [colNormRow] at hy
  | cons x xs ih =>
    intro j0 h y hy
    simp only [colNormRow, List.mem_cons] at hy
    rcases hy with rfl | hy
    · exact div_pos (h x (List.mem_cons_self x xs))
        (lt_max_of_lt_right sinkEps_pos)
    · exact ih (j0 + 1) (fun z hz => h z (List.mem_cons_of_mem x hz)) y hy

/-- Column normalization preserves entrywise positivity. -/
theorem colNormalize_pos {α : Type} [LinearOrderedField α] (P : Mat α)
    (h : ∀ row ∈ P, ∀ x ∈ row, 0 < x) :
    ∀ row ∈ colNormalize P, ∀ x ∈ row, 0 < x := by
  intro row hrow
  simp only [colNormalize, List.mem_map] at hrow
  obtain ⟨row0, h0, rfl⟩ := hrow
  exact colNormRow_pos P row0 0 (h row0 h0)

/-! ### Claim theorems: C2, C5, C9, C10 -/

/-- C2: for every dimension and every generator state, the layer matrix
generated for method mhc with `sinkhornIters == 0` is identical (value and
resulting generator state) to the one generated for method hc from the same
state: the raw random matrix is returned and the Sinkhorn projector is
bypassed. -/
theorem c2_mhc_zero_iters_is_hc {α : Type} [LinearOrderedField α]
    (R : RealOps α) (n : ℕ) (s : ℤ) :
    generateResidualMatrix R n Method.mhc 0 s =
      generateResidualMatrix R n Method.hc 0 s := by
  simp [generateResidualMatrix]

/-- C5: `sinkhornKnopp M 0` is exactly the element-wise exponential of
`M - max M`, and for every `k` the result is obtained from that exponentiated
matrix by exactly `k` rounds of row normalization followed by column
normalization, each divisor floored at `1e-8`. -/
theorem c5_sinkhorn_rounds {α : Type} [LinearOrderedField α] (R : RealOps α)
    (M : Mat α) (k : ℕ) :
    sinkhornKnopp R M 0 = expMat R M ∧
      sinkhornKnopp R M (k : ℤ) =
        (fun P => colNormalize (rowNormalize P))^[k] (expMat R M) := by
  constructor
  · rfl
  · unfold sinkhornKnopp
    rw [Int.toNat_ofNat, foldl_range_const]

/-- C9: in exact arithmetic every entry of `sinkhornKnopp M k` is strictly
positive for every matrix `M` and every `k ≥ 0`, given that the exponential
is positive: exponentiation yields positive entries and each normalization
divides by a divisor floored at the positive constant `1e-8`. -/
theorem c9_sinkhorn_entries_pos {α : Type} [LinearOrderedField α]
    (R : RealOps α) (hexp : ∀ x : α, 0 < R.exp x) (M : Mat α) (k : ℕ) :
    ∀ row ∈ sinkhornKnopp R M (k : ℤ), ∀ x ∈ row, 0 < x := by
  unfold sinkhornKnopp
  rw [Int.toNat_ofNat, foldl_range_const]
  induction k with
  | zero => exact expMat_pos R hexp M
  | succ k ih =>
    rw [Function.iterate_succ_apply']
    exact colNormalize_pos _ (rowNormalize_pos _ ih)

/-- Witness for C9 at a concrete input: `α := ℚ`, the positive dummy
exponential of `R0`, `M = [[0]]`, one iteration. -/
theorem c9_sinkhorn_entries_pos_witness :
    (∀ x : ℚ, 0 < R0.exp x) ∧
      ∀ row ∈ sinkhornKnopp R0 [[0]] ((1 : ℕ) : ℤ), ∀ x ∈ row, 0 < x :=
  ⟨fun _ => one_pos, c9_sinkhorn_entries_pos R0 (fun _ => one_pos) [[0]] 1⟩

/-- C10: the standard-normal sampler is not total over the generator output
range.  There is a generator state (for example the captured seed value
2463401483, so that the incremented seed is exactly `2^32`) for which the
mulberry32 output word is exactly 0, hence the uniform value `u1` fed by
`normalRandom` to the logarithm is exactly 0; in IEEE arithmetic
`Math.log(0) = -Infinity`, so `sqrt(-2*log(u1))` and the returned sample are
non-finite. -/
theorem c10_normal_sampler_zero_u1 {α : Type} [LinearOrderedField α]
    (R : RealOps α) :
    ∃ s : ℤ, (mulberry32 s).2 = 0 ∧
      (normalRandom R s).1 =
        R.sqrt (-2 * R.log 0) *
          R.cos (2 * R.pi * uniformVal (mulberry32 (mulberry32 s).1).2) := by
  refine ⟨2463401483, ?_, ?_⟩
  · decide
  · have h : (mulberry32 (2463401483 : ℤ)).2 = 0 := by decide
    simp [normalRandom, h, uniformVal]

/-! ### Identity-matrix and matmul lemmas -/

/-- Summing a delta-supported function over `List.range n` picks out the one
surviving term. -/
theorem sum_map_range_ite {α : Type} [LinearOrderedField α] (f : ℕ → α)
    (j : ℕ) :
    ∀ n : ℕ, j < n →
      ((List.range n).map fun l => if l = j then f l else 0).sum = f j := by
  intro n
  induction n with
  | zero => omega
  | succ n ih =>
    intro hj
    rw [List.range_succ, List.map_append, List.sum_append]
    rcases Nat.lt_succ_iff_lt_or_eq.mp hj with h | h
    · rw [ih h]
      have hne : ¬(n = j) := by omega
      simp [hne]
    · subst h
      have hz : ((List.range j).map fun l =>
          if l = j then f l else 0).sum = 0 := by
        apply List.sum_eq_zero
        intro x hx
        simp only [List.mem_map, List.mem_range] at hx
        obtain ⟨l, hl, rfl⟩ := hx
        have : ¬(l = j) := by omega
        simp [this]
      simp [hz]

/-- Entry of the identity matrix. -/
theorem entry_eye {α : Type} [LinearOrderedField α] (n i j : ℕ) :
    entry (eye n : Mat α) i j = if i = j ∧ i < n then (1 : α) else 0 := by
  unfold entry eye
  by_cases hi : i < n
  · have hrow : ((List.range n).map fun a =>
        (List.range n).map fun b => if a = b then (1 : α) else 0).getD i [] =
          (List.range n).map fun b => if i = b then (1 : α) else 0 := by
      rw [List.getD_eq_getElem _ _ (by simpa using hi)]
      simp
    rw [hrow]
    by_cases hj : j < n
    · rw [List.getD_eq_getElem _ _ (by simpa using hj)]
      simp only [List.getElem_map, List.getElem_range]
      by_cases hij : i = j <;> simp [hij, hi, hj]
    · rw [List.getD_eq_default _ _ (by simpa using Nat.le_of_not_lt hj)]
      have hne : ¬(i = j ∧ i < n) := by omega
      simp [hne]
  · have hrow : ((List.range n).map fun a =>
        (List.range n).map fun b => if a = b then (1 : α) else 0).getD i [] =
          ([] : List α) :=
      List.getD_eq_default _ _ (by simpa using Nat.le_of_not_lt hi)
    rw [hrow]
    have hne : ¬(i = j ∧ i < n) := by omega
    simp [hne]

/-- Multiplying a row of `f` values against column `j` of the identity matrix
returns `f j`. -/
theorem sum_range_mul_eye {α : Type} [LinearOrderedField α] (n j : ℕ)
    (hj : j < n) (f : ℕ → α) :
    ((List.range n).map fun l => f l * entry (eye n : Mat α) l j).sum = f j := by
  have h : ∀ l ∈ List.range n,
      f l * entry (eye n : Mat α) l j = if l = j then f l else 0 := by
    intro l hl
    rw [entry_eye]
    by_cases hlj : l = j
    · subst hlj; simp [List.mem_range.mp hl]
    · simp [hlj]
  rw [List.map_congr_left h]
  exact sum_map_range_ite f j n hj

/-- Rebuilding a list of known length from its `getD` reads gives it back. -/
theorem map_range_getD {α : Type} [LinearOrderedField α] (row : List α)
    (n : ℕ) (h : row.length = n) :
    (List.range n).map (fun j => row.getD j 0) = row := by
  apply List.ext_getElem (by simp [h])
  intro i h1 h2
  simp only [List.getElem_map, List.getElem_range]
  rw [List.getD_eq_getElem _ _ (by omega)]

/-- Shape of the identity matrix. -/
theorem eye_isDim {α : Type} [LinearOrderedField α] (n : ℕ) :
    IsDim (eye n : Mat α) n n := by
  constructor
  · simp [eye]
  · intro row hrow
    simp only [eye, List.mem_map] at hrow
    obtain ⟨i, -, rfl⟩ := hrow
    simp

/-- Multiplying a well-formed `n x n` matrix by the identity on the right
gives it back. -/
theorem matmul_eye_right {α : Type} [LinearOrderedField α] (H : Mat α)
    (n : ℕ) (hH : IsDim H n n) : matmul H (eye n) = H := by
  obtain ⟨hlen, hrows⟩ := hH
  cases n with
  | zero =>
    have : H = [] := List.length_eq_zero.mp hlen
    subst this
    rfl
  | succ m =>
    have hhead : ((eye (m + 1) : Mat α).headD []).length = m + 1 := by
      rw [eye, List.range_succ_eq_map]
      simp
    have hklen : (eye (m + 1) : Mat α).length = m + 1 := by simp [eye]
    unfold matmul
    rw [hlen, hhead, hklen]
    apply List.ext_getElem (by simp [hlen])
    intro i h1 h2
    simp only [List.getElem_map, List.getElem_range]
    have hi : i < m + 1 := by simpa using h1
    have hrowlen : H[i].length = m + 1 :=
      hrows H[i] (H.getElem_mem h2)
    apply List.ext_getElem (by simp [hrowlen])
    intro j hj1 hj2
    simp only [List.getElem_map, List.getElem_range]
    have hjlt : j < m + 1 := by simpa using hj1
    rw [sum_range_mul_eye (m + 1) j hjlt (fun l => entry H i l)]
    unfold entry
    have hHi : H.getD i [] = H[i] := List.getD_eq_getElem _ _ (by omega)
    rw [hHi, List.getD_eq_getElem _ _ (by omega)]

/-! ### Shape lemmas for generated matrices -/

/-- Entry access into a matrix built by a double map over ranges. -/
theorem entry_map_map {α : Type} [LinearOrderedField α] (p r : ℕ)
    (f : ℕ → ℕ → α) (i j : ℕ) (hi : i < p) (hj : j < r) :
    entry ((List.range p).map fun a => (List.range r).map fun b => f a b) i j
      = f i j := by
  unfold entry
  have hrow : (((List.range p).map fun a =>
      (List.range r).map fun b => f a b)).getD i [] =
        (List.range r).map fun b => f i b := by
    rw [List.getD_eq_getElem _ _ (by simpa using hi)]
    simp
  rw [hrow, List.getD_eq_getElem _ _ (by simpa using hj)]
  simp

/-- Length of one drawn row. -/
theorem drawRow_length {α : Type} [LinearOrderedField α] (R : RealOps α) :
    ∀ (m : ℕ) (s : ℤ), ((drawRow R m s).1).length = m := by
  intro m
  induction m with
  | zero => intro s; rfl
  | succ m ih => intro s; simp [drawRow, ih]

/-- Shape of the drawn row block. -/
theorem drawRows_isDim {α : Type} [LinearOrderedField α] (R : RealOps α)
    (n : ℕ) : ∀ (m : ℕ) (s : ℤ), IsDim (drawRows R n m s).1 m n := by
  intro m
  induction m with
  | zero => intro s; exact ⟨rfl, by intro row h; simp [drawRows] at h⟩
  | succ m ih =>
    intro s
    obtain ⟨hl, hr⟩ := ih (drawRow R n s).2
    refine ⟨by simp [drawRows, hl], ?_⟩
    intro row hrow
    simp only [drawRows, List.mem_cons] at hrow
    rcases hrow with rfl | hrow
    · exact drawRow_length R n s
    · exact hr row hrow

/-- Shape of the random matrix. -/
theorem randomMatrix_isDim {α : Type} [LinearOrderedField α] (R : RealOps α)
    (n : ℕ) (s : ℤ) : IsDim (randomMatrix R n s).1 n n :=
  drawRows_isDim R n n s

/-- Exponentiation preserves the shape. -/
theorem expMat_isDim {α : Type} [LinearOrderedField α] (R : RealOps α)
    (M : Mat α) (n : ℕ) (h : IsDim M n n) : IsDim (expMat R M) n n := by
  obtain ⟨hl, hr⟩ := h
  refine ⟨by simp [expMat, hl], ?_⟩
  intro row hrow
  simp only [expMat, List.mem_map] at hrow
  obtain ⟨row0, h0, rfl⟩ := hrow
  simp [hr row0 h0]

/-- Row normalization preserves the shape. -/
theorem rowNormalize_isDim {α : Type} [LinearOrderedField α] (P : Mat α)
    (n : ℕ) (h : IsDim P n n) : IsDim (rowNormalize P) n n := by
  obtain ⟨hl, hr⟩ := h
  refine ⟨by simp [rowNormalize, hl], ?_⟩
  intro row hrow
  simp only [rowNormalize, List.mem_map] at hrow
  obtain ⟨row0, h0, rfl⟩ := hrow
  simp [hr row0 h0]

/-- Column division preserves the length of a row. -/
theorem colNormRow_length {α : Type} [LinearOrderedField α] (P : Mat α) :
    ∀ (l : List α) (j0 : ℕ), (colNormRow P j0 l).length = l.length := by
  intro l
  induction l with
  | nil => intro j0; rfl
  | cons x xs ih => intro j0; simp [colNormRow, ih]

/-- Column normalization preserves the shape. -/
theorem colNormalize_isDim {α : Type} [LinearOrderedField α] (P : Mat α)
    (n : ℕ) (h : IsDim P n n) : IsDim (colNormalize P) n n := by
  obtain ⟨hl, hr⟩ := h
  refine ⟨by simp [colNormalize, hl], ?_⟩
  intro row hrow
  simp only [colNormalize, List.mem_map] at hrow
  obtain ⟨row0, h0, rfl⟩ := hrow
  rw [colNormRow_length]
  exact hr row0 h0

/-- Sinkhorn projection preserves the shape. -/
theorem sinkhornKnopp_isDim {α : Type} [LinearOrderedField α] (R : RealOps α)
    (M : Mat α) (k : ℤ) (n : ℕ) (h : IsDim M n n) :
    IsDim (sinkhornKnopp R M k) n n := by
  unfold sinkhornKnopp
  rw [foldl_range_const]
  induction k.toNat with
  | zero => exact expMat_isDim R M n h
  | succ d ih =>
    rw [Function.iterate_succ_apply']
    exact colNormalize_isDim _ n (rowNormalize_isDim _ n ih)

/-- Every generated residual matrix is `n x n`. -/
theorem generateResidualMatrix_isDim {α : Type} [LinearOrderedField α]
    (R : RealOps α) (n : ℕ) (method : Method) (k : ℤ) (s : ℤ) :
    IsDim (generateResidualMatrix R n method k s).1 n n := by
  cases method with
  | baseline => exact eye_isDim n
  | hc => exact randomMatrix_isDim R n s
  | mhc =>
    unfold generateResidualMatrix
    by_cases hk : k = 0
    · simp only [hk, if_pos rfl]
      exact randomMatrix_isDim R n s
    · simp only [if_neg hk]
      exact sinkhornKnopp_isDim R _ k n (randomMatrix_isDim R n s)

/-! ### Simulation-loop lemmas -/

/-- Peeling one generation step off the layer-entry-state recursion. -/
theorem layerEntryState_shift {α : Type} [LinearOrderedField α]
    (R : RealOps α) (n : ℕ) (method : Method) (k : ℤ) :
    ∀ (L : ℕ) (s : ℤ),
      layerEntryState R n method k s (L + 1) =
        layerEntryState R n method k
          (generateResidualMatrix R n method k s).2 L := by
  intro L
  induction L with
  | zero => intro s; rfl
  | succ L ih =>
    intro s
    show (generateResidualMatrix R n method k
        (layerEntryState R n method k s (L + 1))).2 = _
    rw [ih s]
    rfl

/-- The layer matrix recorded at index `L` is the residual matrix generated
from the layer-entry state at `L`. -/
theorem simLoop_layerMats {α : Type} [LinearOrderedField α] (R : RealOps α)
    (n : ℕ) (method : Method) (k : ℤ) :
    ∀ (d : ℕ) (comp : Mat α) (s : ℤ) (L : ℕ), L < d →
      (simLoop R n method k d comp s).1.1.getD L [] =
        (generateResidualMatrix R n method k
          (layerEntryState R n method k s L)).1 := by
  intro d
  induction d with
  | zero => intro comp s L hL; omega
  | succ d ih =>
    intro comp s L hL
    cases L with
    | zero => rfl
    | succ L =>
      show ((simLoop R n method k (d + 1) comp s).1.1).getD (L + 1) [] = _
      have hstep : (simLoop R n method k (d + 1) comp s).1.1 =
          (generateResidualMatrix R n method k s).1 ::
            (simLoop R n method k d
              (matmul (generateResidualMatrix R n method k s).1 comp)
              (generateResidualMatrix R n method k s).2).1.1 := rfl
      rw [hstep, List.getD_cons_succ, ih _ _ L (by omega),
        layerEntryState_shift]

/-! ### Claim theorems: C1, C3, C4, C7 -/

/-- The baseline simulation loop keeps the composite at the identity. -/
theorem simLoop_baseline {α : Type} [LinearOrderedField α] (R : RealOps α)
    (n : ℕ) (k : ℤ) :
    ∀ (d : ℕ) (s : ℤ),
      simLoop R n Method.baseline k d (eye n) s =
        ((List.replicate d (eye n), List.replicate d (eye n)), s) := by
  intro d
  induction d with
  | zero => intro s; rfl
  | succ d ih =>
    intro s
    show ((((eye n : Mat α) ::
        (simLoop R n Method.baseline k d (matmul (eye n) (eye n)) s).1.1),
        (matmul (eye n : Mat α) (eye n) ::
        (simLoop R n Method.baseline k d (matmul (eye n) (eye n)) s).1.2)),
        (simLoop R n Method.baseline k d (matmul (eye n) (eye n)) s).2) = _
    rw [matmul_eye_right (eye n) n (eye_isDim n), ih s]
    simp [List.replicate_succ]

/-- C1: for every `depth ≥ 1`, `n ≥ 1`, every `sinkhornIters` and every seed,
the baseline simulation has a composite matrix equal to `eye n` after every
layer, so every recorded composite metric record is computed on the identity
matrix. -/
theorem c1_baseline_composite_identity {α : Type} [LinearOrderedField α]
    (R : RealOps α) (depth : ℤ) (n : ℕ) (k seed : ℤ)
    (_hd : 1 ≤ depth) (_hn : 1 ≤ n) :
    (simulateDepth R depth n Method.baseline k seed).compositeMats =
      List.replicate depth.toNat (eye n) := by
  show (simLoop R n Method.baseline k depth.toNat (eye n) seed).1.2 = _
  rw [simLoop_baseline R n k depth.toNat seed]

/-- Witness for C1 at `depth = 2`, `n = 2`. -/
theorem c1_baseline_composite_identity_witness :
    ((1 : ℤ) ≤ 2 ∧ 1 ≤ (2 : ℕ)) ∧
      (simulateDepth R0 2 2 Method.baseline 0 7).compositeMats =
        List.replicate (2 : ℤ).toNat (eye 2) :=
  ⟨⟨by norm_num, by norm_num⟩,
    c1_baseline_composite_identity R0 2 2 0 7 (by norm_num) (by norm_num)⟩

/-- C3 counterexample: `matmul` performs no dimension check.  At
`A = [[1, 2]]` (one row, two columns) and `B = [[3]]` (one row, one column)
the column count of `A` differs from the row count of `B`, yet `matmul`
returns the ordinary value `[[3]]` instead of failing with a
DimensionMismatch error: the source (sinkhorn.ts lines 57-77) contains no
dimension test and no throw. -/
theorem c3_counterexample :
    ((([[1, 2]] : Mat ℚ).headD []).length ≠ ([[3]] : Mat ℚ).length) ∧
      matmul ([[1, 2]] : Mat ℚ) [[3]] = [[3]] := by
  refine ⟨by decide, ?_⟩
  have hr : List.range 1 = [0] := rfl
  norm_num [matmul, entry, hr]

/-- C3 amended: `matmul` never raises an error; on shape-compatible inputs
(`A` of shape `p x q`, `B` of shape `q x r` with `q ≥ 1`) it returns the
standard matrix product of shape `p x r`. -/
theorem c3_matmul_standard_product {α : Type} [LinearOrderedField α]
    (A B : Mat α) (p q r : ℕ) (hq : 0 < q) (hA : IsDim A p q)
    (hB : IsDim B q r) :
    IsDim (matmul A B) p r ∧
      ∀ i < p, ∀ j < r,
        entry (matmul A B) i j =
          ((List.range q).map fun l => entry A i l * entry B l j).sum := by
  obtain ⟨hAl, hAr⟩ := hA
  obtain ⟨hBl, hBr⟩ := hB
  have hhead : (B.headD []).length = r := by
    cases B with
    | nil => simp at hBl; omega
    | cons b bs => exact hBr b (List.mem_cons_self b bs)
  have hmm : matmul A B =
      (List.range p).map fun i => (List.range r).map fun j =>
        ((List.range q).map fun l => entry A i l * entry B l j).sum := by
    unfold matmul
    rw [hAl, hhead, hBl]
  constructor
  · rw [hmm]
    refine ⟨by simp, ?_⟩
    intro row hrow
    simp only [List.mem_map] at hrow
    obtain ⟨i, -, rfl⟩ := hrow
    simp
  · intro i hi j hj
    rw [hmm]
    exact entry_map_map p r
      (fun a b => ((List.range q).map fun l => entry A a l * entry B l b).sum)
      i j hi hj

/-- Witness for C3 amended at `A = [[1]]`, `B = [[2]]`. -/
theorem c3_matmul_standard_product_witness :
    ((0 : ℕ) < 1 ∧ IsDim ([[1]] : Mat ℚ) 1 1 ∧ IsDim ([[2]] : Mat ℚ) 1 1) ∧
      (IsDim (matmul ([[1]] : Mat ℚ) [[2]]) 1 1 ∧
        ∀ i < 1, ∀ j < 1,
          entry (matmul ([[1]] : Mat ℚ) [[2]]) i j =
            ((List.range 1).map fun l =>
              entry ([[1]] : Mat ℚ) i l * entry ([[2]] : Mat ℚ) l j).sum) :=
  ⟨⟨by norm_num, by decide, by decide⟩,
    c3_matmul_standard_product [[1]] [[2]] 1 1 1 (by norm_num) (by decide)
      (by decide)⟩

/-- C4 counterexample: with `depth = 0` (a non-positive depth),
`simulateDepth` does not raise any error — it returns a normal result whose
per-layer and composite records are empty.  The source (simulation.ts lines
51-96 and 101-112) contains no configuration validation at all. -/
theorem c4_counterexample :
    (simulateDepth R0 0 3 Method.baseline 0 42).layerMats = [] ∧
      (simulateDepth R0 0 3 Method.baseline 0 42).compositeMats = [] :=
  ⟨rfl, rfl⟩

/-- C4 amended: `simulateDepth` (and hence `runComparison`) performs no
configuration validation.  A non-positive `depth` yields a normal result with
empty per-layer and composite records, and a negative `sinkhornIters` is
accepted: the Sinkhorn loop simply runs zero rounds, returning the
exponentiated matrix. -/
theorem c4_no_validation {α : Type} [LinearOrderedField α] (R : RealOps α)
    (depth : ℤ) (n : ℕ) (method : Method) (k seed : ℤ) (hd : depth ≤ 0) :
    (simulateDepth R depth n method k seed).layerMats = [] ∧
      (simulateDepth R depth n method k seed).compositeMats = [] ∧
      (runComparison R depth n k seed).hc.layerMats = [] ∧
      ∀ (M : Mat α) (j : ℤ), j ≤ 0 → sinkhornKnopp R M j = expMat R M := by
  have h0 : depth.toNat = 0 := Int.toNat_of_nonpos hd
  refine ⟨?_, ?_, ?_, ?_⟩
  · show (simLoop R n method k depth.toNat (eye n) seed).1.1 = []
    rw [h0]
    rfl
  · show (simLoop R n method k depth.toNat (eye n) seed).1.2 = []
    rw [h0]
    rfl
  · show (simLoop R n Method.hc k depth.toNat (eye n) seed).1.1 = []
    rw [h0]
    rfl
  · intro M j hj
    unfold sinkhornKnopp
    rw [Int.toNat_of_nonpos hj]
    rfl

/-- Witness for C4 amended at `depth = 0`, method mhc with negative
`sinkhornIters`. -/
theorem c4_no_validation_witness :
    ((0 : ℤ) ≤ 0) ∧
      ((simulateDepth R0 0 2 Method.mhc (-3) 5).layerMats = [] ∧
        (simulateDepth R0 0 2 Method.mhc (-3) 5).compositeMats = [] ∧
        (runComparison R0 0 2 (-3) 5).hc.layerMats = [] ∧
        ∀ (M : Mat ℚ) (j : ℤ), j ≤ 0 → sinkhornKnopp R0 M j = expMat R0 M) :=
  ⟨le_refl 0, c4_no_validation R0 0 2 Method.mhc (-3) 5 (le_refl 0)⟩

/-- C7: `getSampleMatrix` equals the layer-0 generated matrix of
`simulateDepth` with the same arguments (for any `depth ≥ 1`), and at
`depth = 1` the first composite matrix — the matrix the first composite
metric record is computed on — is exactly that sample matrix, because the
initial composite is the identity. -/
theorem c7_sample_matrix_roundtrip {α : Type} [LinearOrderedField α]
    (R : RealOps α) (n : ℕ) (method : Method) (k seed : ℤ) (depth : ℤ)
    (hd : 1 ≤ depth) :
    getSampleMatrix R n method k seed =
      (simulateDepth R depth n method k seed).layerMats.getD 0 [] ∧
      (simulateDepth R 1 n method k seed).compositeMats.getD 0 [] =
        getSampleMatrix R n method k seed := by
  constructor
  · show getSampleMatrix R n method k seed =
      (simLoop R n method k depth.toNat (eye n) seed).1.1.getD 0 []
    rw [simLoop_layerMats R n method k depth.toNat (eye n) seed 0 (by omega)]
    rfl
  · show (simLoop R n method k (1 : ℤ).toNat (eye n) seed).1.2.getD 0 [] = _
    have h1 : (simLoop R n method k (1 : ℤ).toNat (eye n) seed).1.2.getD 0 [] =
        matmul (generateResidualMatrix R n method k seed).1 (eye n) := rfl
    rw [h1, matmul_eye_right _ n (generateResidualMatrix_isDim R n method k seed)]
    rfl

/-- Witness for C7 at `n = 1`, method baseline, `depth = 1`. -/
theorem c7_sample_matrix_roundtrip_witness :
    ((1 : ℤ) ≤ 1) ∧
      (getSampleMatrix R0 1 Method.baseline 0 3 =
        (simulateDepth R0 1 1 Method.baseline 0 3).layerMats.getD 0 [] ∧
      (simulateDepth R0 1 1 Method.baseline 0 3).compositeMats.getD 0 [] =
        getSampleMatrix R0 1 Method.baseline 0 3) :=
  ⟨le_refl 1, c7_sample_matrix_roundtrip R0 1 Method.baseline 0 3 1 (le_refl 1)⟩

/-! ### Claim theorems: C6 -/

/-- Generation advances the generator state identically for hc and mhc: the
only randomness either branch consumes is the shared `randomMatrix` draw, and
the Sinkhorn projection consumes none. -/
theorem generateResidualMatrix_state_mhc_hc {α : Type} [LinearOrderedField α]
    (R : RealOps α) (n : ℕ) (k : ℤ) (s : ℤ) :
    (generateResidualMatrix R n Method.mhc k s).2 =
      (generateResidualMatrix R n Method.hc k s).2 := by
  unfold generateResidualMatrix
  by_cases hk : k = 0 <;> simp [hk]

/-- The per-layer entry states of the hc and mhc runs coincide. -/
theorem layerEntryState_mhc_hc {α : Type} [LinearOrderedField α]
    (R : RealOps α) (n : ℕ) (k seed : ℤ) :
    ∀ L : ℕ,
      layerEntryState R n Method.mhc k seed L =
        layerEntryState R n Method.hc k seed L := by
  intro L
  induction L with
  | zero => rfl
  | succ L ih =>
    show (generateResidualMatrix R n Method.mhc k
        (layerEntryState R n Method.mhc k seed L)).2 = _
    rw [ih, generateResidualMatrix_state_mhc_hc]
    rfl

/-- Each Box-Muller sample advances the mulberry32 state by exactly two
increments, one per uniform draw. -/
theorem normalRandom_state {α : Type} [LinearOrderedField α] (R : RealOps α)
    (s : ℤ) : (normalRandom R s).2 = s + 2 * mulberryInc := by
  show s + mulberryInc + mulberryInc = s + 2 * mulberryInc
  ring

/-- Drawing a row of `m` normal entries consumes `2 * m` uniform draws. -/
theorem drawRow_state {α : Type} [LinearOrderedField α] (R : RealOps α) :
    ∀ (m : ℕ) (s : ℤ), (drawRow R m s).2 = s + 2 * m * mulberryInc := by
  intro m
  induction m with
  | zero => intro s; show s = s + 2 * (0 : ℕ) * mulberryInc; simp
  | succ m ih =>
    intro s
    show (drawRow R m (normalRandom R s).2).2 = _
    rw [ih, normalRandom_state]
    push_cast
    ring

/-- Drawing `m` rows of `n` entries consumes `2 * n * m` uniform draws. -/
theorem drawRows_state {α : Type} [LinearOrderedField α] (R : RealOps α)
    (n : ℕ) :
    ∀ (m : ℕ) (s : ℤ), (drawRows R n m s).2 = s + 2 * n * m * mulberryInc := by
  intro m
  induction m with
  | zero => intro s; show s = s + 2 * (n : ℕ) * (0 : ℕ) * mulberryInc; simp
  | succ m ih =>
    intro s
    show (drawRows R n m (drawRow R n s).2).2 = _
    rw [ih, drawRow_state]
    push_cast
    ring

/-- C6: each normal draw consumes exactly two uniform draws, each layer of an
hc or mhc run consumes exactly `n * n` normal draws (advancing the mulberry32
state by `2 * n * n` increments), and at every layer index `L < depth` the
pre-projection random matrix of the mhc run of `runComparison` equals the
layer-`L` matrix of its hc run: both runs are seeded identically and reach
identical generator states at every layer. -/
theorem c6_hc_mhc_matched_draws {α : Type} [LinearOrderedField α]
    (R : RealOps α) (depth : ℤ) (n : ℕ) (k seed : ℤ) (L : ℕ)
    (hL : L < depth.toNat) :
    (∀ s : ℤ, (normalRandom R s).2 = s + 2 * mulberryInc) ∧
      (∀ (m : ℕ) (s : ℤ),
        (randomMatrix R m s).2 = s + 2 * m * m * mulberryInc) ∧
      mhcPreProjection R n k seed L =
        (runComparison R depth n k seed).hc.layerMats.getD L [] := by
  refine ⟨normalRandom_state R, fun m s => drawRows_state R m m s, ?_⟩
  show mhcPreProjection R n k seed L =
    (simLoop R n Method.hc k depth.toNat (eye n) seed).1.1.getD L []
  rw [simLoop_layerMats R n Method.hc k depth.toNat (eye n) seed L hL]
  unfold mhcPreProjection
  rw [layerEntryState_mhc_hc]
  rfl

/-- Witness for C6 at `depth = 1`, `L = 0`. -/
theorem c6_hc_mhc_matched_draws_witness :
    (0 < (1 : ℤ).toNat) ∧
      ((∀ s : ℤ, (normalRandom R0 s).2 = s + 2 * mulberryInc) ∧
        (∀ (m : ℕ) (s : ℤ),
          (randomMatrix R0 m s).2 = s + 2 * m * m * mulberryInc) ∧
        mhcPreProjection R0 2 5 42 0 =
          (runComparison R0 1 2 5 42).hc.layerMats.getD 0 []) :=
  ⟨by norm_num, c6_hc_mhc_matched_draws R0 1 2 5 42 0 (by norm_num)⟩

/-! ### Eigenvalue estimator (metrics.ts lines 12-136) -/

/-- Eigenvalue pair (real and imaginary part) as returned by the estimator. -/
structure Eig (α : Type) where
  re : α
  im : α
deriving DecidableEq, Repr

/-- Convergence threshold `1e-10` used by both the QR column test and the
sub-diagonal scan. -/
def threshold10 {α : Type} [LinearOrderedField α] : α := 1 / 10000000000

/-- Dot product of two vectors (metrics.ts lines 134-136). -/
def dotProduct {α : Type} [LinearOrderedField α] (a b : List α) : α :=
  ((a.zip b).map fun p => p.1 * p.2).sum

/-- Column `j` of a matrix (metrics.ts lines 81-84). -/
def colOf {α : Type} [LinearOrderedField α] (A : Mat α) (j : ℕ) : List α :=
  A.map fun row => row.getD j 0

/-- Unit basis vector used by the zero-column fallback (metrics.ts lines
103-107). -/
def stdBasis {α : Type} [LinearOrderedField α] (n j : ℕ) : List α :=
  (List.range n).map fun i => if i = j then (1 : α) else 0

/-- Projection-subtraction pass of Gram-Schmidt (metrics.ts lines 89-94):
for each previous q vector, compute `R[i][j] = dot(q_i, c_j)` against the
original column and subtract `R[i][j] * q_i` from the running vector.
Returns the reduced vector and the list of projection coefficients. -/
def gsSubtract {α : Type} [LinearOrderedField α] (cj : List α)
    (qs : List (List α)) : List α × List α :=
  qs.foldl
    (fun acc qi =>
      ((acc.1.zip qi).map fun p => p.1 - dotProduct qi cj * p.2,
        acc.2 ++ [dotProduct qi cj]))
    (cj, [])

/-- One Gram-Schmidt column step (metrics.ts lines 86-108): subtract
projections, set `R[j][j] = sqrt(dot(v, v))`, and emit `v / R[j][j]` as the
next q column unless `R[j][j] ≤ 1e-10`, in which case the unit basis vector
is used.  The accumulator carries the q columns and the R columns produced
so far. -/
def gsStep {α : Type} [LinearOrderedField α] (R : RealOps α) (n : ℕ)
    (acc : List (List α) × List (List α)) (cj : List α) :
    List (List α) × List (List α) :=
  let vr := gsSubtract cj acc.1
  let rjj := R.sqrt (dotProduct vr.1 vr.1)
  let j := acc.1.length
  let qj := if threshold10 < rjj then vr.1.map fun x => x / rjj
    else stdBasis n j
  (acc.1 ++ [qj], acc.2 ++ [vr.2 ++ [rjj] ++ List.replicate (n - j - 1) 0])

/-- Assembles a matrix from a list of columns: row `i` collects entry `i` of
each column. -/
def transposeCols {α : Type} [LinearOrderedField α] (n : ℕ)
    (cols : List (List α)) : Mat α :=
  (List.range n).map fun i => cols.map fun c => c.getD i 0

/-- QR decomposition by classical Gram-Schmidt (metrics.ts lines 75-111):
processes the columns of `A` left to right, producing `Q` and `R`. -/
def qrDecomposition {α : Type} [LinearOrderedField α] (R : RealOps α)
    (A : Mat α) : Mat α × Mat α :=
  let n := A.length
  let out := ((List.range n).map (colOf A)).foldl (gsStep R n) ([], [])
  (transposeCols n out.1, transposeCols n out.2)

/-- Square matrix multiplication helper of the estimator (metrics.ts lines
116-129), which sums over `n = A.length` in all three loops. -/
def matrixMultiply {α : Type} [LinearOrderedField α] (A B : Mat α) : Mat α :=
  let n := A.length
  (List.range n).map fun i => (List.range n).map fun j =>
    ((List.range n).map fun l => entry A i l * entry B l j).sum

/-- One QR-iteration round (metrics.ts lines 20-25): factor `A = QR`, then
replace `A` with `R * Q`. -/
def qrStep {α : Type} [LinearOrderedField α] (R : RealOps α) (A : Mat α) :
    Mat α :=
  let qr := qrDecomposition R A
  matrixMultiply qr.2 qr.1

/-- Diagonal scan extracting eigenvalues from the quasi-triangular matrix
(metrics.ts lines 31-60): where the sub-diagonal entry is below `1e-10` (or
at the last index) emit the diagonal entry as a real eigenvalue and advance
by one; otherwise solve the 2x2 block via the quadratic formula on trace and
determinant and advance by two.  The fuel argument bounds the loop; `n`
steps always suffice since the index strictly increases. -/
def extractEigs {α : Type} [LinearOrderedField α] (R : RealOps α) (A : Mat α)
    (n : ℕ) : ℕ → ℕ → List (Eig α)
  | 0, _ => []
  | fuel + 1, i =>
    if i < n then
      if i = n - 1 ∨ |entry A (i + 1) i| < threshold10 then
        ⟨entry A i i, 0⟩ :: extractEigs R A n fuel (i + 1)
      else
        let a := entry A i i
        let b := entry A i (i + 1)
        let c := entry A (i + 1) i
        let d := entry A (i + 1) (i + 1)
        let tr := a + d
        let det := a * d - b * c
        let disc := tr * tr - 4 * det
        (if 0 ≤ disc then
            [⟨(tr + R.sqrt disc) / 2, 0⟩, ⟨(tr - R.sqrt disc) / 2, 0⟩]
          else
            [⟨tr / 2, R.sqrt (-disc) / 2⟩, ⟨tr / 2, -(R.sqrt (-disc) / 2)⟩])
          ++ extractEigs R A n fuel (i + 2)
    else []

/-- Magnitude of an eigenvalue pair (metrics.ts lines 63-67). -/
def eigMag {α : Type} [LinearOrderedField α] (R : RealOps α) (e : Eig α) :
    α :=
  R.sqrt (e.re * e.re + e.im * e.im)

/-- Eigenvalue estimator (metrics.ts lines 12-70): 100 rounds of unshifted
QR iteration, diagonal extraction, then a sort by descending magnitude. -/
def eigenvaluesSorted {α : Type} [LinearOrderedField α] (R : RealOps α)
    (matrix : Mat α) : List (Eig α) :=
  let n := matrix.length
  let A1 := (qrStep R)^[100] matrix
  (extractEigs R A1 n n 0).mergeSort fun a b =>
    decide (eigMag R b ≤ eigMag R a)

/-! ### QR iteration on the identity matrix -/

/-- Positivity of the QR threshold constant. -/
theorem threshold10_pos {α : Type} [LinearOrderedField α] :
    (0 : α) < threshold10 := by
  norm_num [threshold10]

/-- The QR threshold is below one. -/
theorem threshold10_lt_one {α : Type} [LinearOrderedField α] :
    (threshold10 : α) < 1 := by
  norm_num [threshold10]

/-- Columns of the identity matrix are the unit basis vectors. -/
theorem colOf_eye {α : Type} [LinearOrderedField α] (n j : ℕ) (hj : j < n) :
    colOf (eye n : Mat α) j = stdBasis n j := by
  unfold colOf eye stdBasis
  rw [List.map_map]
  apply List.map_congr_left
  intro i hi
  simp only [Function.comp_apply]
  rw [List.getD_eq_getElem _ _ (by simpa using hj)]
  simp

/-- Dot product of distinct unit basis vectors vanishes. -/
theorem dotProduct_std_ne {α : Type} [LinearOrderedField α] (n a b : ℕ)
    (hab : a ≠ b) :
    dotProduct (stdBasis n a : List α) (stdBasis n b) = 0 := by
  unfold dotProduct stdBasis
  rw [List.zip_map', List.map_map]
  apply List.sum_eq_zero
  intro x hx
  simp only [List.mem_map, List.mem_range, Function.comp_apply] at hx
  obtain ⟨l, -, rfl⟩ := hx
  by_cases hla : l = a
  · have : ¬(l = b) := by omega
    simp [this]
  · simp [hla]

/-- Dot product of a unit basis vector with itself is one. -/
theorem dotProduct_std_self {α : Type} [LinearOrderedField α] (n j : ℕ)
    (hj : j < n) :
    dotProduct (stdBasis n j : List α) (stdBasis n j) = 1 := by
  unfold dotProduct stdBasis
  rw [List.zip_map', List.map_map]
  have h : ((fun l => ((if l = j then (1 : α) else 0) *
      if l = j then (1 : α) else 0))) =
      fun l => if l = j then (fun _ : ℕ => (1 : α)) l else 0 := by
    funext l
    by_cases hlj : l = j <;> simp [hlj]
  calc ((List.range n).map fun l =>
        ((fun i => if i = j then (1 : α) else 0) ∘ fun x => x) l *
          ((fun i => if i = j then (1 : α) else 0) ∘ fun x => x) l).sum
      = ((List.range n).map fun l =>
          if l = j then (fun _ : ℕ => (1 : α)) l else 0).sum := by
        apply congrArg
        apply List.map_congr_left
        intro l _
        by_cases hlj : l = j <;> simp [hlj]
    _ = 1 := sum_map_range_ite (fun _ => (1 : α)) j n hj

/-- Length of a unit basis vector. -/
theorem stdBasis_length {α : Type} [LinearOrderedField α] (n j : ℕ) :
    (stdBasis n j : List α).length = n := by
  simp [stdBasis]

/-- Entry of a unit basis vector. -/
theorem stdBasis_getD {α : Type} [LinearOrderedField α] (n j i : ℕ)
    (hi : i < n) :
    (stdBasis n j : List α).getD i 0 = if i = j then (1 : α) else 0 := by
  unfold stdBasis
  rw [List.getD_eq_getElem _ _ (by simpa using hi)]
  simp

/-- The projection pass leaves a vector orthogonal to all accumulated q
columns unchanged and returns zero coefficients. -/
theorem gsSubtract_ortho {α : Type} [LinearOrderedField α] (cj : List α) :
    ∀ (qs : List (List α)),
      (∀ q ∈ qs, dotProduct q cj = 0 ∧ cj.length ≤ q.length) →
      gsSubtract cj qs = (cj, List.replicate qs.length 0) := by
  have haux : ∀ (qs : List (List α)) (rs0 : List α),
      (∀ q ∈ qs, dotProduct q cj = 0 ∧ cj.length ≤ q.length) →
      qs.foldl
        (fun acc qi =>
          ((acc.1.zip qi).map fun p => p.1 - dotProduct qi cj * p.2,
            acc.2 ++ [dotProduct qi cj]))
        (cj, rs0) = (cj, rs0 ++ List.replicate qs.length 0) := by
    intro qs
    induction qs with
    | nil => intro rs0 _; simp
    | cons q qs ih =>
      intro rs0 h
      obtain ⟨hq0, hqlen⟩ := h q (List.mem_cons_self q qs)
      rw [List.foldl_cons]
      have hstep : ((cj.zip q).map fun p =>
          p.1 - dotProduct q cj * p.2, rs0 ++ [dotProduct q cj]) =
          ((cj : List α), rs0 ++ [(0 : α)]) := by
        rw [hq0]
        simp [List.map_fst_zip _ _ hqlen]
      rw [hstep, ih (rs0 ++ [0])
        (fun p hp => h p (List.mem_cons_of_mem q hp))]
      simp [List.replicate_succ]
  intro qs h
  exact haux qs [] h

/-- The R column produced at step `j`: `j` zeros, a one, then padding. -/
def rCol {α : Type} [LinearOrderedField α] (n j : ℕ) : List α :=
  List.replicate j 0 ++ [1] ++ List.replicate (n - j - 1) 0

/-- Entries of the produced R column. -/
theorem rCol_getD {α : Type} [LinearOrderedField α] (n j i : ℕ) (hi : i < n)
    (hj : j < n) :
    (rCol n j : List α).getD i 0 = if i = j then (1 : α) else 0 := by
  unfold rCol
  rcases lt_trichotomy i j with hij | hij | hij
  · have hne : i ≠ j := by omega
    rw [List.getD_append _ _ _ _ (by simp; omega)]
    rw [List.getD_append _ _ _ _ (by simp [hij])]
    rw [List.getD_eq_getElem _ _ (by simpa using hij)]
    simp [hne]
  · subst hij
    rw [List.getD_append _ _ _ _ (by simp)]
    rw [List.getD_append_right _ _ _ _ (by simp)]
    simp
  · have hne : i ≠ j := by omega
    rw [List.getD_append_right _ _ _ _ (by simp; omega)]
    simp only [List.length_append, List.length_replicate, List.length_cons,
      List.length_nil]
    rw [List.getD_eq_getElem _ _ (by simp; omega)]
    simp [hne]

/-- One Gram-Schmidt step on column `j` of the identity: all projections
vanish, the column norm is `sqrt 1 = 1`, and the q and R columns emitted are
the unit basis vector and `rCol n j`. -/
theorem gsStep_eye {α : Type} [LinearOrderedField α] (R : RealOps α)
    (hsqrt : R.sqrt 1 = 1) (n j : ℕ) (hj : j < n) (acc2 : List (List α)) :
    gsStep R n ((List.range j).map fun t => (stdBasis n t : List α), acc2)
        (stdBasis n j) =
      ((List.range j).map (fun t => (stdBasis n t : List α)) ++
          [stdBasis n j],
        acc2 ++ [rCol n j]) := by
  have hsub : gsSubtract (stdBasis n j)
      ((List.range j).map fun t => (stdBasis n t : List α)) =
      (stdBasis n j, List.replicate j 0) := by
    rw [gsSubtract_ortho]
    · simp
    · intro q hq
      simp only [List.mem_map, List.mem_range] at hq
      obtain ⟨i, hi, rfl⟩ := hq
      refine ⟨dotProduct_std_ne n i j (by omega), ?_⟩
      rw [stdBasis_length, stdBasis_length]
  simp only [gsStep, hsub]
  rw [dotProduct_std_self n j hj, hsqrt, if_pos threshold10_lt_one]
  simp [rCol, div_one]

/-- Folding the Gram-Schmidt step over the remaining identity columns keeps
producing unit basis q columns and `rCol` R columns. -/
theorem gs_fold_eye {α : Type} [LinearOrderedField α] (R : RealOps α)
    (hsqrt : R.sqrt 1 = 1) (n : ℕ) :
    ∀ (m j : ℕ), j + m = n →
      ((List.range m).map fun t => (stdBasis n (j + t) : List α)).foldl
          (gsStep R n)
          ((List.range j).map fun t => (stdBasis n t : List α),
            (List.range j).map fun t => (rCol n t : List α)) =
        ((List.range n).map fun t => (stdBasis n t : List α),
          (List.range n).map fun t => (rCol n t : List α)) := by
  intro m
  induction m with
  | zero =>
    intro j hj
    have hjn : j = n := by omega
    subst hjn
    simp
  | succ m ih =>
    intro j hj
    rw [List.range_succ_eq_map, List.map_cons, List.foldl_cons, List.map_map]
    have h0 : j + 0 = j := by omega
    rw [h0, gsStep_eye R hsqrt n j (by omega)]
    have happ1 : (List.range j).map (fun t => (stdBasis n t : List α)) ++
        [stdBasis n j] =
        (List.range (j + 1)).map fun t => (stdBasis n t : List α) := by
      rw [List.range_succ, List.map_append]
      rfl
    have happ2 : (List.range j).map (fun t => (rCol n t : List α)) ++
        [rCol n j] =
        (List.range (j + 1)).map fun t => (rCol n t : List α) := by
      rw [List.range_succ, List.map_append]
      rfl
    rw [happ1, happ2]
    have hmap : (List.range m).map
        ((fun t => (stdBasis n (j + t) : List α)) ∘ Nat.succ) =
        (List.range m).map fun t => (stdBasis n (j + 1 + t) : List α) := by
      apply List.map_congr_left
      intro t _
      simp only [Function.comp_apply]
      rw [show j + (t + 1) = j + 1 + t from by omega]
    rw [hmap]
    exact ih (j + 1) (by omega)

/-- Assembling the unit basis columns gives back the identity. -/
theorem transposeCols_std {α : Type} [LinearOrderedField α] (n : ℕ) :
    transposeCols n ((List.range n).map fun t => (stdBasis n t : List α)) =
      eye n := by
  unfold transposeCols eye
  apply List.map_congr_left
  intro i hi
  rw [List.map_map]
  apply List.map_congr_left
  intro j _
  simp only [Function.comp_apply]
  exact stdBasis_getD n j i (List.mem_range.mp hi)

/-- Assembling the produced R columns gives back the identity. -/
theorem transposeCols_rCol {α : Type} [LinearOrderedField α] (n : ℕ) :
    transposeCols n ((List.range n).map fun t => (rCol n t : List α)) =
      eye n := by
  unfold transposeCols eye
  apply List.map_congr_left
  intro i hi
  rw [List.map_map]
  apply List.map_congr_left
  intro j hj
  simp only [Function.comp_apply]
  exact rCol_getD n j i (List.mem_range.mp hi) (List.mem_range.mp hj)

/-- QR decomposition of the identity is `Q = I`, `R = I`. -/
theorem qrDecomposition_eye {α : Type} [LinearOrderedField α] (R : RealOps α)
    (hsqrt : R.sqrt 1 = 1) (n : ℕ) :
    qrDecomposition R (eye n : Mat α) = (eye n, eye n) := by
  simp only [qrDecomposition]
  have hlen : ((eye n : Mat α)).length = n := by simp [eye]
  rw [hlen]
  have hcols : (List.range n).map (colOf (eye n : Mat α)) =
      (List.range n).map fun t => (stdBasis n (0 + t) : List α) := by
    apply List.map_congr_left
    intro j hj
    rw [Nat.zero_add]
    exact colOf_eye n j (List.mem_range.mp hj)
  rw [hcols]
  have hstart : (([] : List (List α)), ([] : List (List α))) =
      ((List.range 0).map fun t => (stdBasis n t : List α),
        (List.range 0).map fun t => (rCol n t : List α)) := by simp
  rw [hstart, gs_fold_eye R hsqrt n n 0 (by omega)]
  rw [transposeCols_std, transposeCols_rCol]

/-- Reconstructing a well-formed matrix from its entries gives it back. -/
theorem matrix_reconstruct {α : Type} [LinearOrderedField α] (A : Mat α)
    (n : ℕ) (h : IsDim A n n) :
    (List.range n).map (fun i => (List.range n).map fun j => entry A i j) =
      A := by
  have hAl := h.1
  apply List.ext_getElem (by simp [hAl])
  intro i h1 h2
  simp only [List.getElem_map, List.getElem_range]
  have hlen : A[i].length = n := h.2 _ (A.getElem_mem h2)
  apply List.ext_getElem (by simp [hlen])
  intro j hj1 hj2
  simp only [List.getElem_map, List.getElem_range]
  unfold entry
  have hAi : A.getD i [] = A[i] := List.getD_eq_getElem _ _ (by omega)
  rw [hAi, List.getD_eq_getElem _ _ (by omega)]

/-- The square multiplication helper fixes the identity. -/
theorem matrixMultiply_eye {α : Type} [LinearOrderedField α] (n : ℕ) :
    matrixMultiply (eye n : Mat α) (eye n) = eye n := by
  simp only [matrixMultiply]
  have hlen : ((eye n : Mat α)).length = n := by simp [eye]
  rw [hlen]
  have hout : (List.range n).map (fun i => (List.range n).map fun j =>
      ((List.range n).map fun l =>
        entry (eye n : Mat α) i l * entry (eye n : Mat α) l j).sum) =
      (List.range n).map fun i => (List.range n).map fun j =>
        entry (eye n : Mat α) i j := by
    apply List.map_congr_left
    intro i _
    apply List.map_congr_left
    intro j hj
    exact sum_range_mul_eye n j (List.mem_range.mp hj)
      (fun l => entry (eye n : Mat α) i l)
  rw [hout, matrix_reconstruct (eye n) n (eye_isDim n)]

/-- One QR-iteration round fixes the identity. -/
theorem qrStep_eye {α : Type} [LinearOrderedField α] (R : RealOps α)
    (hsqrt : R.sqrt 1 = 1) (n : ℕ) :
    qrStep R (eye n : Mat α) = eye n := by
  simp only [qrStep, qrDecomposition_eye R hsqrt n]
  exact matrixMultiply_eye n

/-- The diagonal scan of the identity emits one real eigenvalue `(1, 0)` per
remaining index: every sub-diagonal entry is `0`, below the threshold. -/
theorem extractEigs_eye {α : Type} [LinearOrderedField α] (R : RealOps α)
    (n : ℕ) :
    ∀ (m i : ℕ), i + m = n →
      extractEigs R (eye n : Mat α) n m i =
        List.replicate m ⟨(1 : α), 0⟩ := by
  intro m
  induction m with
  | zero => intro i _; rfl
  | succ m ih =>
    intro i hi
    have hin : i < n := by omega
    show extractEigs R (eye n : Mat α) n (m + 1) i = _
    unfold extractEigs
    rw [if_pos hin]
    have hsub : entry (eye n : Mat α) (i + 1) i = 0 := by
      rw [entry_eye]
      have : ¬(i + 1 = i ∧ i + 1 < n) := by omega
      simp [this]
    have hcond : i = n - 1 ∨
        |entry (eye n : Mat α) (i + 1) i| < threshold10 :=
      Or.inr (by rw [hsub]; simpa using (threshold10_pos (α := α)))
    rw [if_pos hcond]
    have hdiag : entry (eye n : Mat α) i i = 1 := by
      rw [entry_eye]
      simp [hin]
    rw [hdiag, ih (i + 1) (by omega)]
    rfl

/-- Sorting a constant list with any comparator returns it unchanged. -/
theorem mergeSort_replicate {β : Type} (le : β → β → Bool) (m : ℕ) (x : β) :
    (List.replicate m x).mergeSort le = List.replicate m x := by
  have hp := List.mergeSort_perm (List.replicate m x) le
  rw [List.eq_replicate_iff]
  refine ⟨by rw [hp.length_eq, List.length_replicate], ?_⟩
  intro b hb
  exact List.eq_of_mem_replicate (hp.mem_iff.mp hb)

/-- C8: for every `n`, the eigenvalue estimator applied to the identity
matrix returns exactly `n` eigenvalue pairs, each equal to `(1, 0)`: the
identity is a fixed point of the QR iteration (its Gram-Schmidt
factorization is `Q = I`, `R = I`), every sub-diagonal entry is `0`, and the
diagonal scan emits `n` real eigenvalues equal to `1`.  The only analytic
fact needed is `sqrt 1 = 1`. -/
theorem c8_eigenvalues_identity {α : Type} [LinearOrderedField α]
    (R : RealOps α) (hsqrt : R.sqrt 1 = 1) (n : ℕ) :
    eigenvaluesSorted R (eye n : Mat α) =
      List.replicate n ⟨(1 : α), 0⟩ := by
  simp only [eigenvaluesSorted]
  have hlen : ((eye n : Mat α)).length = n := by simp [eye]
  rw [hlen, Function.iterate_fixed (qrStep_eye R hsqrt n) 100]
  rw [extractEigs_eye R n n 0 (by omega)]
  exact mergeSort_replicate _ n _

/-- Witness for C8 at `n = 2` with the concrete `ℚ` operations of `R0`
(whose square root fixes 1). -/
theorem c8_eigenvalues_identity_witness :
    (R0.sqrt 1 = 1) ∧
      eigenvaluesSorted R0 (eye 2) = List.replicate 2 ⟨(1 : ℚ), 0⟩ :=
  ⟨rfl, c8_eigenvalues_identity R0 rfl 2⟩

end MHCViz
